import Mathlib

/-!
Verification development for the cu-basketball-analytics repository.

This file gives a shallow embedding of the parts of the source that the
claims speak about:

* `modules/data_loader.py`  — parsing (result derivation, numeric coercion,
  name normalization, player extraction, lineup tracking, batch loading);
* `modules/play_analyzer.py` — run detection with subtype point attribution;
* `modules/metrics_calculator.py` — per-player aggregation, metric formulas,
  and the simplified run detection.

Python strings are modeled as `String`/`List Char`; Python ints and floats
as `Int`/`ℚ`; Python dicts as association lists with insertion-order
semantics; a raising code path as `Except Unit`.
-/

set_option maxHeartbeats 1000000

deriving instance DecidableEq for Except

namespace CUBB

/-! ## Python string primitives -/

/-- Whitespace characters recognized by Python's `str.split()` / `str.strip()`
(restricted to the ASCII range, which is all the game files contain). -/
def isSpc (c : Char) : Bool :=
  c == ' ' || c == '\t' || c == '\n' || c == '\r' || c == '\x0b' || c == '\x0c'

/-- Python `str.upper()` (ASCII). -/
def pyUpper (s : String) : String := String.mk (s.toList.map Char.toUpper)

/-- Does `l` start with `n`? (needle-first helper for substring search). -/
def leadsWith : List Char → List Char → Bool
  | [], _ => true
  | _ :: _, [] => false
  | a :: as, b :: bs => a == b && leadsWith as bs

/-- Does the needle occur as a contiguous segment of the haystack? -/
def hasSeg (needle : List Char) : List Char → Bool
  | [] => leadsWith needle []
  | c :: cs => leadsWith needle (c :: cs) || hasSeg needle cs

/-- Python `needle in hay` on strings. -/
def strContains (hay needle : String) : Bool := hasSeg needle.toList hay.toList

/-- Helper for Python `str.split()` with no separator: accumulate the current
word (reversed) and cut at whitespace, dropping empty words. -/
def wordsAux : List Char → List Char → List (List Char)
  | acc, [] => if acc.isEmpty then [] else [acc.reverse]
  | acc, c :: cs =>
    if isSpc c then
      if acc.isEmpty then wordsAux [] cs else acc.reverse :: wordsAux [] cs
    else wordsAux (c :: acc) cs

/-- Python `str.split()` with no separator. -/
def words (l : List Char) : List (List Char) := wordsAux [] l

/-- Python `' '.join(ws)`. -/
def joinWords : List (List Char) → List Char
  | [] => []
  | [w] => w
  | w :: w' :: ws => w ++ ' ' :: joinWords (w' :: ws)

/-- Python `' '.join(s.split())`: collapse all whitespace runs. -/
def collapse (l : List Char) : List Char := joinWords (words l)

/-- Drop trailing whitespace. -/
def dropTrail (l : List Char) : List Char := (l.reverse.dropWhile isSpc).reverse

/-- Python `str.strip()`. -/
def stripWS (l : List Char) : List Char := dropTrail (l.dropWhile isSpc)

/-- Python `s.split(',')` (keeps empty pieces). -/
def splitComma : List Char → List (List Char)
  | [] => [[]]
  | c :: cs =>
    if c == ',' then [] :: splitComma cs
    else
      match splitComma cs with
      | [] => [[c]]
      | w :: ws => (c :: w) :: ws

/-- Python truthiness-based `a or b` on optional strings: an absent or empty
first operand falls through to the second. -/
def pyOrS (a b : Option String) : Option String :=
  match a with
  | some s => if s = "" then b else some s
  | none => b

/-- Python `str(x)` on an optional string (`str(None) = "None"`). -/
def pyStr : Option String → String
  | none => "None"
  | some s => s

/-! ## Name normalization (`GameDataLoader._normalize_name`, data_loader.py 300-310) -/

/-- Core of `_normalize_name` on character lists: collapse whitespace, then
rewrite `"Last, First"` to `"First Last"` using the first two comma pieces,
then strip. -/
def normName (l : List Char) : List Char :=
  if (collapse l).contains ',' then
    stripWS (stripWS ((splitComma (collapse l)).getD 1 []) ++ ' ' ::
      stripWS ((splitComma (collapse l)).getD 0 []))
  else stripWS (collapse l)

/-- `GameDataLoader._normalize_name`. -/
def pyNormalizeName (s : String) : String := String.mk (normName s.toList)

/-! ## Result derivation (`parse_game_content`, data_loader.py 119-126) -/

/-- Line 126: `game_data['result'] = 'W' if cu_score > opp_score else 'L'`. -/
def gameResult (cuScore oppScore : Int) : String :=
  if oppScore < cuScore then "W" else "L"

/-! ## Numeric coercion (data_loader.py 188-231, 342-362) -/

/-- A value stored in a stats mapping: a number, or raw text retained after a
failed coercion. -/
inductive StatVal where
  | num (q : ℚ)
  | text (s : String)
  deriving DecidableEq

/-- Value of a nonempty all-digit character list. -/
def digitsVal (l : List Char) : Nat :=
  l.foldl (fun a c => a * 10 + (c.toNat - 48)) 0

/-- Python `int(s)` on text: surrounding whitespace, an optional sign, then
one or more digits; anything else raises (modeled as `none`). -/
def pyInt (s : String) : Option Int :=
  let t := stripWS s.toList
  let core : List Char → Option Int := fun d =>
    if d ≠ [] ∧ d.all Char.isDigit then some (digitsVal d) else none
  match t with
  | '+' :: r => core r
  | '-' :: r => (core r).map (fun n => -n)
  | r => core r

/-- Exponent part of a Python float literal: optional sign then digits. -/
def parseExp (l : List Char) : Option Int :=
  let core : List Char → Option Int := fun d =>
    if d ≠ [] ∧ d.all Char.isDigit then some (digitsVal d) else none
  match l with
  | '+' :: r => core r
  | '-' :: r => (core r).map (fun n => -n)
  | r => core r

/-- Mantissa-and-exponent part of Python `float(s)` (no sign): digits with an
optional decimal point (at least one digit overall) and an optional exponent.
The resulting value is modeled exactly as a rational. -/
def pyFloatCore (l : List Char) : Option ℚ :=
  let ip := l.takeWhile Char.isDigit
  let r1 := l.dropWhile Char.isDigit
  let finish : ℚ → List Char → Option ℚ := fun base r =>
    match r with
    | [] => some base
    | 'e' :: r4 => (parseExp r4).map (fun e => base * (10 : ℚ) ^ e)
    | 'E' :: r4 => (parseExp r4).map (fun e => base * (10 : ℚ) ^ e)
    | _ => none
  match r1 with
  | '.' :: r2 =>
    let fp := r2.takeWhile Char.isDigit
    let r3 := r2.dropWhile Char.isDigit
    if ip = [] ∧ fp = [] then none
    else finish ((digitsVal ip : ℚ) + (digitsVal fp : ℚ) / (10 : ℚ) ^ fp.length) r3
  | _ =>
    if ip = [] then none else finish (digitsVal ip : ℚ) r1

/-- Python `float(s)` on text: whitespace, optional sign, mantissa, optional
exponent (`inf`/`nan` and digit underscores are not produced by the data and
are left unmodeled). -/
def pyFloat (s : String) : Option ℚ :=
  let t := stripWS s.toList
  match t with
  | '+' :: r => pyFloatCore r
  | '-' :: r => (pyFloatCore r).map (fun q => -q)
  | r => pyFloatCore r

/-- The guarded coercion used for team totals, player totals and per-quarter
totals (data_loader.py 217-221, 278-282, 289-294):
`try: float(v) if '.' in v else int(v); except: keep v`. -/
def coerceStat (v : String) : StatVal :=
  if v.toList.contains '.' then
    match pyFloat v with
    | some q => StatVal.num q
    | none => StatVal.text v
  else
    match pyInt v with
    | some n => StatVal.num (n : ℚ)
    | none => StatVal.text v

/-- Python `int(attr or 0)` on an optional attribute (data_loader.py 206, 210,
352-353): a missing or empty attribute gives `0`; present non-integer text
raises. -/
def intOrZero (a : Option String) : Except Unit Int :=
  match a with
  | none => Except.ok 0
  | some s =>
    if s = "" then Except.ok 0
    else
      match pyInt s with
      | some n => Except.ok n
      | none => Except.error ()

/-! ## Play records (`_parse_play`, data_loader.py 342-362) -/

/-- One parsed play (`play_data`). Vendor extras copied by lines 358-360 are
not carried since no analyzed code path reads them. -/
structure PlayRec where
  pid : Nat
  period : String
  time : String
  team : Option String
  player : Option String
  action : Option String
  ptype : Option String
  hscore : Int
  vscore : Int
  ptext : String
  deriving DecidableEq

/-- Raw attributes of a `<play>` element read by `_parse_play`. -/
structure PlayElemAttrs where
  time : Option String
  clock : Option String
  vh : Option String
  team : Option String
  checkname : Option String
  player : Option String
  action : Option String
  ptype : Option String
  hscore : Option String
  vscore : Option String
  innerText : Option String
  deriving DecidableEq

/-- `_parse_play`: builds the play record; the bare `int(... or 0)` on the
running scores raises on non-integer text. -/
def parsePlay (e : PlayElemAttrs) (period : String) (playId : Nat) :
    Except Unit PlayRec := do
  let hs ← intOrZero e.hscore
  let vs ← intOrZero e.vscore
  Except.ok
    { pid := playId
      period := period
      time := (pyOrS (pyOrS e.time e.clock) (some "10:00")).getD "10:00"
      team := pyOrS e.vh e.team
      player := pyOrS e.checkname e.player
      action := e.action
      ptype := e.ptype
      hscore := hs
      vscore := vs
      ptext := e.innerText.getD "" }

/-! ## Run detection -/

/-- `PlayByPlayAnalyzer._get_points_for_play` (play_analyzer.py 70-80):
subtype-label inference — three-point indicator → 3, free-throw indicator → 1,
else 2. `str()` is applied before `.upper()`, so absent attributes read as
`"None"`. -/
def getPointsForPlay (p : PlayRec) : Nat :=
  let typeStr := pyUpper (pyStr p.ptype)
  let actionStr := pyUpper (pyStr p.action)
  if strContains typeStr ("3PT") || strContains typeStr ("3PTR") then 3
  else if strContains typeStr ("FT") || strContains actionStr ("FREE THROW") then 1
  else 2

/-- Is this an uppercased made-basket action text? -/
def isMadeStr (a : String) : Bool :=
  strContains a ("GOOD") || strContains a ("MADE")

/-- A recorded run (`team`/`points`/`start`/`end`; `end` is renamed `stop`). -/
structure Run where
  team : Option String
  points : Nat
  start : Nat
  stop : Nat
  deriving DecidableEq

/-- Loop of `PlayByPlayAnalyzer._detect_runs_in_game` (play_analyzer.py 43-68).
`play.get('action', '').upper()` raises when the stored action is `None`.
The streak still open when the list ends is NOT appended (no flush). -/
def detectRunsPAGo (runs : List Run) (curTeam : Option String) (curPts : Nat)
    (startIdx : Nat) (idx : Nat) : List PlayRec → Except Unit (List Run)
  | [] => Except.ok runs
  | p :: ps =>
    match p.action with
    | none => Except.error ()
    | some a =>
      if isMadeStr (pyUpper a) then
        if p.team == curTeam then
          detectRunsPAGo runs curTeam (curPts + getPointsForPlay p) startIdx (idx + 1) ps
        else
          let runs' :=
            if 6 ≤ curPts then runs ++ [⟨curTeam, curPts, startIdx, idx - 1⟩] else runs
          detectRunsPAGo runs' p.team (getPointsForPlay p) idx (idx + 1) ps
      else detectRunsPAGo runs curTeam curPts startIdx (idx + 1) ps

/-- `PlayByPlayAnalyzer._detect_runs_in_game`. -/
def detectRunsInGame (plays : List PlayRec) : Except Unit (List Run) :=
  detectRunsPAGo [] none 0 0 0 plays

/-- Loop of `MetricsCalculator._detect_runs` (metrics_calculator.py 407-427).
Every made basket adds a flat 2 points (`# Simplified`); at the end of the
list the still-open streak IS appended when it reached the threshold. -/
def detectRunsMCGo (runs : List Run) (cur : Run) (idx : Nat) :
    List PlayRec → Except Unit (List Run)
  | [] => Except.ok (if 6 ≤ cur.points then runs ++ [cur] else runs)
  | p :: ps =>
    match p.action with
    | none => Except.error ()
    | some a =>
      if isMadeStr (pyUpper a) then
        if p.team == cur.team then
          detectRunsMCGo runs { cur with points := cur.points + 2, stop := idx } (idx + 1) ps
        else
          let runs' := if 6 ≤ cur.points then runs ++ [cur] else runs
          detectRunsMCGo runs' ⟨p.team, 2, idx, idx⟩ (idx + 1) ps
      else detectRunsMCGo runs cur (idx + 1) ps

/-- `MetricsCalculator._detect_runs`. -/
def detectRuns (plays : List PlayRec) : Except Unit (List Run) :=
  detectRunsMCGo [] ⟨none, 0, 0, 0⟩ 0 plays

/-! ## Player extraction (data_loader.py 233-298) -/

/-- Attribute lookup on an element's attribute map. -/
def attrGet (attrs : List (String × String)) (k : String) : Option String :=
  (attrs.find? (fun e => e.1 == k)).map (fun e => e.2)

/-- Raw attributes of a `<player>` element and its child elements, as read by
`_extract_player_stats`: the `stats` child's attribute map (if any) and the
attribute maps of the `statsbyprd` children. -/
structure PlayerElem where
  name : Option String
  player : Option String
  pos : Option String
  position : Option String
  uni : Option String
  stats : Option (List (String × String))
  statsbyprd : List (List (String × String))
  deriving DecidableEq

/-- One player's parsed line (`player_data`). The parser stores it in the
game's player dict keyed by its (normalized) `name`. -/
structure ParsedPlayer where
  name : String
  position : String
  uniform : String
  team : String
  is_cu : Bool
  stats : List (String × StatVal)
  quarter_stats : List (String × List (String × StatVal))
  deriving DecidableEq

/-- Line 255: `name = player_elem.get('name') or player_elem.get('player')`. -/
def rawName (e : PlayerElem) : Option String := pyOrS e.name e.player

/-- Is this element a team-level pseudo-player row (missing/empty name or a
case-insensitive `TEAM` name), which `_extract_player_stats` rejects? -/
def isTeamRow (e : PlayerElem) : Bool :=
  match rawName e with
  | none => true
  | some s => s == "" || pyUpper s == "TEAM"

/-- `GameDataLoader._extract_player_stats` (data_loader.py 252-298). Returns
`none` exactly when the Python returns `None`. -/
def extractPlayerStats (e : PlayerElem) (teamId : String) (isCu : Bool) :
    Option ParsedPlayer :=
  match rawName e with
  | none => none
  | some nm =>
    if nm = "" ∨ pyUpper nm = "TEAM" then none
    else
      some
        { name := pyNormalizeName nm
          position := (pyOrS (pyOrS e.pos e.position) (some "F")).getD "F"
          uniform := (pyOrS e.uni (some "")).getD ""
          team := teamId
          is_cu := isCu
          stats :=
            match e.stats with
            | none => []
            | some attrs => attrs.map (fun kv => (kv.1, coerceStat kv.2))
          quarter_stats :=
            e.statsbyprd.filterMap (fun attrs =>
              match pyOrS (attrGet attrs ("prd")) (attrGet attrs ("period")) with
              | none => none
              | some per =>
                if per = "" then none
                else
                  some (per,
                    (attrs.filter
                        (fun kv => !(kv.1 == "prd" || kv.1 == "period"))).map
                      (fun kv => (kv.1, coerceStat kv.2)))) }

/-- Python dict assignment `m[k] = v`: overwrite in place, else append. -/
def dictInsert {β : Type} (m : List (String × β)) (k : String) (v : β) :
    List (String × β) :=
  if m.any (fun e => e.1 == k) then
    m.map (fun e => if e.1 == k then (k, v) else e)
  else m ++ [(k, v)]

/-- The inner loop of `_extract_all_players` over one team's player elements
(data_loader.py 244-248). -/
def extractPlayersList (elems : List PlayerElem) (teamId : String) (isCu : Bool)
    (acc : List (String × ParsedPlayer)) : List (String × ParsedPlayer) :=
  elems.foldl
    (fun m e =>
      match extractPlayerStats e teamId isCu with
      | some pd => dictInsert m pd.name pd
      | none => m)
    acc

/-- `GameDataLoader._extract_all_players` (data_loader.py 233-250), with each
team id already resolved to the player elements of its `<team>` element. -/
def extractAllPlayers (teams : List (String × List PlayerElem))
    (cuTeam : String) : List (String × ParsedPlayer) :=
  teams.foldl (fun m te => extractPlayersList te.2 te.1 (te.1 == cuTeam) m) []

/-! ## Team extraction (`_extract_teams`, data_loader.py 188-231) -/

/-- Raw attributes of a `<lineprd>` element. -/
structure LinePrdElem where
  prd : Option String
  period : Option String
  score : Option String
  deriving DecidableEq

/-- Raw attributes of a `<linescore>` element plus its `<lineprd>` children. -/
structure LineScoreElem where
  score : Option String
  lineprds : List LinePrdElem
  deriving DecidableEq

/-- Raw attributes of a `<team>` element plus the resolved `linescore` and
`totals`/`totals/stats` children read by `_extract_teams`. -/
structure TeamElem where
  vh : Option String
  tid : Option String
  code : Option String
  name : Option String
  teamname : Option String
  linescore : Option LineScoreElem
  totals : Option (List (String × String))
  deriving DecidableEq

/-- One team's parsed record (`teams[team_id]`). -/
structure TeamInfo where
  tid : String
  name : String
  score : Int
  quarters : List (Option String × Int)
  totals : List (String × StatVal)
  deriving DecidableEq

/-- Body of the `_extract_teams` loop for one `<team>` element.  A falsy team
id skips the element (`.ok none`); the bare `int(...)` on the linescore and
per-period scores raises on non-integer text, while the totals coercion never
does. -/
def extractTeam (t : TeamElem) : Except Unit (Option (String × TeamInfo)) :=
  match pyOrS (pyOrS t.vh t.tid) t.code with
  | none => Except.ok none
  | some tid =>
    if tid = "" then Except.ok none
    else do
      let nm := (pyOrS (pyOrS t.name t.teamname) (some "Unknown")).getD "Unknown"
      let sq ← match t.linescore with
        | none => Except.ok ((0 : Int), ([] : List (Option String × Int)))
        | some ls => do
          let s ← intOrZero ls.score
          let qs ← ls.lineprds.mapM (fun lp => do
            let ps ← intOrZero lp.score
            Except.ok (pyOrS lp.prd lp.period, ps))
          Except.ok (s, qs)
      let tot := match t.totals with
        | none => []
        | some attrs => attrs.map (fun kv => (kv.1, coerceStat kv.2))
      Except.ok (some (tid, ⟨tid, nm, sq.1, sq.2, tot⟩))

/-- `GameDataLoader._extract_teams`. -/
def extractTeams (elems : List TeamElem) :
    Except Unit (List (String × TeamInfo)) :=
  elems.foldlM
    (fun m t => do
      let r ← extractTeam t
      match r with
      | some kv => Except.ok (dictInsert m kv.1 kv.2)
      | none => Except.ok m)
    []

/-! ## Lineup tracking (`_track_lineups`, data_loader.py 364-405) -/

/-- The running on-court sets for both sides (`current_lineup`). -/
structure LineupState where
  h : Finset String
  v : Finset String

/-- One emitted lineup snapshot; `players` is the recorded on-court set and
`score` is flattened to the two fields. -/
structure Snapshot where
  time : String
  period : String
  team : String
  players : Finset String
  hscore : Int
  vscore : Int
  deriving DecidableEq

/-- Does this player line have `stats['gs'] == 1` (a declared starter)?
Python `==` equates int and float 1, both of which are `StatVal.num 1`. -/
def gsIsOne (pd : ParsedPlayer) : Bool :=
  match (pd.stats.find? (fun e => e.1 == "gs")).map (fun e => e.2) with
  | some (StatVal.num q) => q == 1
  | _ => false

/-- One side's on-court update for a substitution play: an `IN`/`ENTERS`
subtype adds the normalized player, an `OUT`/`LEAVES` subtype removes it,
anything else leaves the set unchanged (data_loader.py 390-393). -/
def subApply (onCourt : Finset String) (act pty plN : String) : Finset String :=
  if strContains pty ("IN") || strContains act ("ENTERS") then insert plN onCourt
  else if strContains pty ("OUT") || strContains act ("LEAVES") then
    onCourt.erase plN
  else onCourt

/-- Step of the `_track_lineups` play loop.  Reading `action`/`type` raises
when the stored value is `None` (line 380-381); a substitution play whose
stored team key is neither `'H'` nor `'V'` raises a `KeyError` when the
lineup dict is indexed (modeled as `Except.error`). -/
def trackGo (st : LineupState) (acc : List Snapshot) :
    List PlayRec → Except Unit (List Snapshot)
  | [] => Except.ok acc
  | p :: ps =>
    match p.action, p.ptype with
    | some a, some ty =>
      if strContains (pyUpper a) ("SUB") then
        match p.player with
        | some pl =>
          if pl = "" then trackGo st acc ps
          else
            match p.team with
            | some tm =>
              if tm = "H" then
                trackGo
                  { st with
                    h := subApply st.h (pyUpper a) (pyUpper ty) (pyNormalizeName pl) }
                  (if (subApply st.h (pyUpper a) (pyUpper ty) (pyNormalizeName pl)).card = 5 then
                    acc ++ [⟨p.time, p.period, tm,
                      subApply st.h (pyUpper a) (pyUpper ty) (pyNormalizeName pl),
                      p.hscore, p.vscore⟩]
                  else acc) ps
              else if tm = "V" then
                trackGo
                  { st with
                    v := subApply st.v (pyUpper a) (pyUpper ty) (pyNormalizeName pl) }
                  (if (subApply st.v (pyUpper a) (pyUpper ty) (pyNormalizeName pl)).card = 5 then
                    acc ++ [⟨p.time, p.period, tm,
                      subApply st.v (pyUpper a) (pyUpper ty) (pyNormalizeName pl),
                      p.hscore, p.vscore⟩]
                  else acc) ps
              else Except.error ()
            | none => Except.error ()
        | none => trackGo st acc ps
      else trackGo st acc ps
    | _, _ => Except.error ()

/-- `GameDataLoader._track_lineups`: seed the home set from the declared
starters when between one and five are found, then walk the plays. (The
Python early-returns `[]` for an empty play list, which the walk also does.) -/
def trackLineups (plays : List PlayRec)
    (players : List (String × ParsedPlayer)) : Except Unit (List Snapshot) :=
  let cuStarters :=
    (players.map (fun e => e.2)).filterMap
      (fun pd => if pd.is_cu && gsIsOne pd then some pd.name else none)
  let st0 : LineupState :=
    if !cuStarters.isEmpty && cuStarters.length ≤ 5 then
      ⟨cuStarters.toFinset, ∅⟩
    else ⟨∅, ∅⟩
  trackGo st0 [] plays

/-! ## Batch loading (`load_from_uploads`, data_loader.py 46-60) -/

/-- `GameDataLoader.load_from_uploads`: parse each uploaded document; an
`.ok` result is collected, a failure is logged (`"Error parsing <name>: <e>"`)
and skipped, never aborting the rest of the batch.  `load_all_games`
(data_loader.py 23-44) has the identical per-file structure over a sorted
directory listing.  The type of parsed games and documents is abstract here;
`parse` instantiates to `parse_game_content`, which always returns a truthy
game dict when it does not raise. -/
def loadFromUploads {α γ : Type} (parse : α → Except String γ)
    (nameOf : α → String) : List α → List γ × List String
  | [] => ([], [])
  | f :: fs =>
    let rest := loadFromUploads parse nameOf fs
    match parse f with
    | Except.ok g => (g :: rest.1, rest.2)
    | Except.error e =>
      (rest.1, ("Error parsing " ++ nameOf f ++ ": " ++ e) :: rest.2)

/-! ## Metrics engine (`metrics_calculator.py`) -/

/-- The slice of a parsed game read by `MetricsCalculator`. -/
structure MGame where
  filename : String
  date : String
  opponent : String
  result : String
  players : List (String × ParsedPlayer)
  deriving DecidableEq

/-- One per-player per-game record appended by `_aggregate_player_games`
(metrics_calculator.py 16-32). -/
structure PGameRec where
  game_id : String
  date : String
  opponent : String
  result : String
  stats : List (String × StatVal)
  quarter_stats : List (String × List (String × StatVal))
  deriving DecidableEq

/-- The `(player_name, record)` pairs one game contributes, in dict order. -/
def gameRecsFor (g : MGame) : List (String × PGameRec) :=
  g.players.filterMap (fun pr =>
    if pr.2.is_cu then
      some (pr.1, ⟨g.filename, g.date, g.opponent, g.result, pr.2.stats,
        pr.2.quarter_stats⟩)
    else none)

/-- All `(player_name, record)` pairs in iteration order. -/
def allRecs (gs : List MGame) : List (String × PGameRec) :=
  gs.flatMap gameRecsFor

/-- `player_game_stats[n]`: this player's records in append order. -/
def playerGames (n : String) (gs : List MGame) : List PGameRec :=
  (allRecs gs).filterMap (fun r => if r.1 = n then some r.2 else none)

/-- First-appearance deduplication (Python dict key insertion order). -/
def insertOrderAux (seen : List String) : List String → List String
  | [] => []
  | n :: ns =>
    if seen.contains n then insertOrderAux seen ns
    else n :: insertOrderAux (n :: seen) ns

/-- The key sequence of `player_game_stats`: tracked players in order of
first appearance. -/
def cuNamesOrdered (gs : List MGame) : List String :=
  insertOrderAux [] ((allRecs gs).map (fun r => r.1))

/-- Numeric payload of a stat value (`isinstance(value, (int, float))`). -/
def statNum : StatVal → Option ℚ
  | StatVal.num q => some q
  | StatVal.text _ => none

/-- Contribution of one stats mapping to `totals[k]`. -/
def statsTotal (st : List (String × StatVal)) (k : String) : ℚ :=
  (st.filterMap (fun e => if e.1 = k then statNum e.2 else none)).sum

/-- `totals.get(k, 0)` after the aggregation loop of
`_calculate_player_metrics` (metrics_calculator.py 72-77): the sum of the
numeric values stored under `k` across the player's games. -/
def seasonTotal (recs : List PGameRec) (k : String) : ℚ :=
  (recs.map (fun r => statsTotal r.stats k)).sum

/-- The basic and shooting metrics of `_calculate_player_metrics`
(metrics_calculator.py 82-106), the totals-derived slice of the full metric
map (`%` is spelled `p` in field names). -/
structure BasicMetrics where
  GP : ℚ
  MIN : ℚ
  MPG : ℚ
  PPG : ℚ
  RPG : ℚ
  APG : ℚ
  SPG : ℚ
  BPG : ℚ
  TOPG : ℚ
  FGp : ℚ
  TPp : ℚ
  FTp : ℚ
  eFGp : ℚ
  TSp : ℚ
  deriving DecidableEq

/-- Lines 82-106 of metrics_calculator.py applied to season totals `t` and
games-played count `gp` (each rate guarded by its division-by-zero policy). -/
def mkMetrics (t : String → ℚ) (gp : ℕ) : BasicMetrics :=
  { GP := gp
    MIN := t ("min")
    MPG := if 0 < gp then t ("min") / gp else 0
    PPG := if 0 < gp then t ("tp") / gp else 0
    RPG := if 0 < gp then t ("treb") / gp else 0
    APG := if 0 < gp then t ("ast") / gp else 0
    SPG := if 0 < gp then t ("stl") / gp else 0
    BPG := if 0 < gp then t ("blk") / gp else 0
    TOPG := if 0 < gp then t ("to") / gp else 0
    FGp := if 0 < t ("fga") then t ("fgm") / t ("fga") else 0
    TPp := if 0 < t ("fga3") then t ("fgm3") / t ("fga3") else 0
    FTp := if 0 < t ("fta") then t ("ftm") / t ("fta") else 0
    eFGp := if 0 < t ("fga") then (t ("fgm") + (1 / 2) * t ("fgm3")) / t ("fga") else 0
    TSp :=
      if 0 < t ("fga") + (11 / 25) * t ("fta") then
        t ("tp") / (2 * (t ("fga") + (11 / 25) * t ("fta")))
      else 0 }

/-- Metrics computed for one player's aggregated game records. -/
def metricsOf (recs : List PGameRec) : BasicMetrics :=
  mkMetrics (seasonTotal recs) recs.length

/-- `MetricsCalculator._get_player_position` (metrics_calculator.py 59-65):
the position stored in the FIRST game (in input order) where the player
appears as tracked, defaulting to `'F'`. -/
def getPlayerPosition (n : String) : List MGame → String
  | [] => "F"
  | g :: gs =>
    match g.players.find? (fun pr => pr.1 == n && pr.2.is_cu) with
    | some pr => pr.2.position
    | none => getPlayerPosition n gs

/-- One entry of the `calculate_all_player_metrics` output. -/
structure Profile where
  name : String
  position : String
  games_played : ℕ
  games : List PGameRec
  metrics : BasicMetrics
  deriving DecidableEq

/-- `MetricsCalculator.calculate_all_player_metrics`
(metrics_calculator.py 34-57). -/
def calcAll (gs : List MGame) : List Profile :=
  (cuNamesOrdered gs).filterMap (fun n =>
    let recs := playerGames n gs
    if recs.isEmpty then none
    else some ⟨n, getPlayerPosition n gs, recs.length, recs, metricsOf recs⟩)

/-! ## Shared helper lemmas for the run detectors -/

/-- Processing a block of made baskets by the team currently on a streak just
adds each play's inferred point value to the streak (play_analyzer loop). -/
theorem detectRunsPAGo_accum (t : String) (ps : List PlayRec)
    (hps : ∀ p ∈ ps, p.team = some t ∧
      ∃ a, p.action = some a ∧ isMadeStr (pyUpper a) = true)
    (runs : List Run) (pts s i : Nat) (rest : List PlayRec) :
    detectRunsPAGo runs (some t) pts s i (ps ++ rest) =
      detectRunsPAGo runs (some t) (pts + (ps.map getPointsForPlay).sum) s
        (i + ps.length) rest := by
  induction ps generalizing pts i with
  | nil => simp
  | cons p ps ih =>
    obtain ⟨hteam, a, ha, hm⟩ := hps p (by simp)
    have hbeq : (p.team == (some t : Option String)) = true := by
      rw [hteam]; exact beq_self_eq_true _
    simp only [List.cons_append, detectRunsPAGo, ha, hm, hbeq, if_true, List.append_eq]
    rw [ih (fun q hq => hps q (by simp [hq]))]
    have e1 : pts + getPointsForPlay p + (ps.map getPointsForPlay).sum =
        pts + ((p :: ps).map getPointsForPlay).sum := by
      simp [List.map_cons]; omega
    have e2 : i + 1 + ps.length = i + (p :: ps).length := by
      simp [List.length_cons]; omega
    rw [e1, e2]

/-- State advance of the metrics-calculator streak over a block of made
baskets by the streak team: a flat 2 points per play, `stop` moved to the
last index of the block. -/
def mcAdvance (cur : Run) (i : Nat) (qs : List PlayRec) : Run :=
  if qs.isEmpty then cur
  else { cur with points := cur.points + 2 * qs.length, stop := i + qs.length - 1 }

/-- Processing a block of made baskets by the streak team in
`_detect_runs` adds a flat 2 points per play. -/
theorem detectRunsMCGo_accum (t : String) (qs : List PlayRec)
    (hqs : ∀ p ∈ qs, p.team = some t ∧
      ∃ a, p.action = some a ∧ isMadeStr (pyUpper a) = true)
    (runs : List Run) (cur : Run) (hcur : cur.team = some t) (i : Nat)
    (rest : List PlayRec) :
    detectRunsMCGo runs cur i (qs ++ rest) =
      detectRunsMCGo runs (mcAdvance cur i qs) (i + qs.length) rest := by
  induction qs generalizing cur i with
  | nil => simp [mcAdvance]
  | cons q qs ih =>
    obtain ⟨hteam, a, ha, hm⟩ := hqs q (by simp)
    have hbeq : (q.team == cur.team) = true := by
      rw [hteam, hcur]; exact beq_self_eq_true _
    simp only [List.cons_append, detectRunsMCGo, ha, hm, hbeq, if_true, List.append_eq]
    rw [ih (fun p hp => hqs p (by simp [hp])) _ (by simpa using hcur)]
    have harg : mcAdvance { cur with points := cur.points + 2, stop := i } (i + 1) qs =
        mcAdvance cur i (q :: qs) := by
      cases qs with
      | nil => simp [mcAdvance]
      | cons q' qs' => simp only [mcAdvance, List.isEmpty_cons, List.length_cons]
                       simp [Run.mk.injEq]
                       omega
    rw [harg]
    have e2 : i + 1 + qs.length = i + (q :: qs).length := by
      simp [List.length_cons]; omega
    rw [e2]

/-! ## Claim C1 -/

/-- C1 counterexample: at equal final scores (70-70) the parsed result is the
plain string `"L"`; the tie is silently assigned a loss rather than flagged. -/
theorem c1_tie_counterexample : gameResult 70 70 = "L" := by decide

/-- C1 (amended): `result = 'W'` iff the tracked team's final score is
strictly greater than the opponent's; equal final scores are silently
assigned `'L'` (data_loader.py 126 has no tie branch). -/
theorem c1_result_amended (cu opp : Int) :
    (gameResult cu opp = "W" ↔ opp < cu) ∧ (cu = opp → gameResult cu opp = "L") := by
  unfold gameResult
  rcases lt_or_ge opp cu with h | h
  · rw [if_pos h]
    exact ⟨⟨fun _ => h, fun _ => rfl⟩, fun he => absurd h (by omega)⟩
  · have hn : ¬ opp < cu := not_lt.mpr h
    rw [if_neg hn]
    exact ⟨⟨fun hw => absurd hw (by decide), fun hlt => absurd hlt hn⟩, fun _ => rfl⟩

/-- C1 amended-claim witness at concrete scores. -/
theorem c1_result_amended_witness :
    gameResult 70 70 = "L" ∧ (gameResult 80 70 = "W" ↔ (70 : Int) < 80) :=
  ⟨(c1_result_amended 70 70).2 rfl, (c1_result_amended 80 70).1⟩

/-! ## Claim C2 -/

/-- A made two-point basket event for side `tm` (action `GOOD`, no subtype). -/
def c2Made (tm : String) : PlayRec :=
  { pid := 0, period := "1", time := "10:00", team := some tm, player := none,
    action := some ("GOOD"), ptype := none, hscore := 0, vscore := 0, ptext := "" }

/-- Five consecutive made 2-point baskets by the same side. -/
def c2FiveLog : List PlayRec := List.replicate 5 (c2Made "H")

/-- Two made baskets per side — both streaks below the 6-point threshold. -/
def c2ShortLog : List PlayRec :=
  [c2Made "H", c2Made "H", c2Made "V", c2Made "V"]

/-- C2: on the five-basket log, `play_analyzer._detect_runs_in_game` records
NO run (the streak still open at the end of the log is never closed), while
`metrics_calculator._detect_runs` records exactly the one 10-point run the
claim requires; neither records a below-threshold run on the short log. -/
theorem c2_run_flush_eval :
    detectRunsInGame c2FiveLog = Except.ok []
    ∧ detectRuns c2FiveLog = Except.ok [⟨some ("H"), 10, 0, 4⟩]
    ∧ detectRunsInGame c2ShortLog = Except.ok []
    ∧ detectRuns c2ShortLog = Except.ok [] := by decide

/-! ## Claim C3 -/

/-- A made three-point basket by side `H` (subtype `3PTR`). -/
def c3Three : PlayRec :=
  { pid := 0, period := "1", time := "10:00", team := some ("H"), player := none,
    action := some ("GOOD"), ptype := some ("3PTR"), hscore := 0, vscore := 0,
    ptext := "" }

/-- A made basket by the other side that closes the streak. -/
def c3Closer : PlayRec :=
  { pid := 0, period := "1", time := "10:00", team := some ("V"), player := none,
    action := some ("GOOD"), ptype := none, hscore := 0, vscore := 0, ptext := "" }

/-- Four three-pointers by `H`, then a closing basket by `V`. -/
def c3Log : List PlayRec := List.replicate 4 c3Three ++ [c3Closer]

/-- C3 counterexample: the metrics-calculator run-detection pass records the
four-three-pointer streak as 8 points (a flat 2 per made basket), although
the subtype attribution rule the claim states for every pass sums it to 12
(`getPointsForPlay` assigns 3 to each `3PTR` play). -/
theorem c3_flat_two_counterexample :
    detectRuns c3Log = Except.ok [⟨some ("H"), 8, 0, 3⟩]
    ∧ ((List.replicate 4 c3Three).map getPointsForPlay).sum = 12 := by decide

/-- C3 (amended): on a streak of made baskets by one side closed by the other
side's made basket, `play_analyzer`'s pass accumulates exactly the
subtype-inferred values (3 for a three-point label, 1 for a free-throw label,
else 2) — never the running-score delta — while `metrics_calculator`'s pass
accumulates a flat 2 per made basket regardless of subtype. -/
theorem c3_points_attribution_amended (ps : List PlayRec) (b : PlayRec) (t : String)
    (hne : ps ≠ [])
    (hps : ∀ p ∈ ps, p.team = some t ∧
      ∃ a, p.action = some a ∧ isMadeStr (pyUpper a) = true)
    (hb : ∃ a, b.action = some a ∧ isMadeStr (pyUpper a) = true)
    (hbt : b.team ≠ some t) :
    detectRunsInGame (ps ++ [b]) =
      Except.ok (if 6 ≤ (ps.map getPointsForPlay).sum then
        [⟨some t, (ps.map getPointsForPlay).sum, 0, ps.length - 1⟩] else [])
    ∧ detectRuns (ps ++ [b]) =
      Except.ok (if 6 ≤ 2 * ps.length then
        [⟨some t, 2 * ps.length, 0, ps.length - 1⟩] else []) := by
  obtain ⟨q, qs, rfl⟩ : ∃ q qs, ps = q :: qs := by
    cases ps with
    | nil => exact absurd rfl hne
    | cons q qs => exact ⟨q, qs, rfl⟩
  obtain ⟨hqteam, aq, haq, hmq⟩ := hps q (by simp)
  obtain ⟨ab, hab, hmb⟩ := hb
  have hbne : (b.team == (some t : Option String)) = false := by
    exact beq_eq_false_iff_ne.mpr hbt
  have hqne : (q.team == (none : Option String)) = false := by
    rw [hqteam]; rfl
  have hlen : 1 + qs.length - 1 = (q :: qs).length - 1 := by
    simp only [List.length_cons]; omega
  have hsum : getPointsForPlay q + (qs.map getPointsForPlay).sum =
      ((q :: qs).map getPointsForPlay).sum := by
    simp [List.map_cons]
  constructor
  · show detectRunsPAGo [] none 0 0 0 ((q :: qs) ++ [b]) = _
    simp only [List.cons_append, detectRunsPAGo, haq, hmq, hqne, Bool.false_eq_true,
      if_false, if_true, List.append_eq]
    rw [if_neg (by omega : ¬ 6 ≤ 0), hqteam]
    rw [detectRunsPAGo_accum t qs (fun p hp => hps p (by simp [hp])) _ _ _ _ [b]]
    simp only [List.singleton_append, detectRunsPAGo, hab, hmb, hbne,
      Bool.false_eq_true, if_false, if_true, List.nil_append]
    rw [hsum, hlen]
  · show detectRunsMCGo [] ⟨none, 0, 0, 0⟩ 0 ((q :: qs) ++ [b]) = _
    simp only [List.cons_append, detectRunsMCGo, haq, hmq, hqne, Bool.false_eq_true,
      if_false, if_true, List.append_eq]
    rw [if_neg (by omega : ¬ 6 ≤ 0), hqteam]
    rw [detectRunsMCGo_accum t qs (fun p hp => hps p (by simp [hp])) _ _ rfl _ [b]]
    have hadv : mcAdvance ⟨some t, 2, 0, 0⟩ 1 qs =
        ⟨some t, 2 * (q :: qs).length, 0, (q :: qs).length - 1⟩ := by
      cases qs with
      | nil => simp [mcAdvance]
      | cons q' qs' =>
        simp only [mcAdvance, List.isEmpty_cons, List.length_cons]
        simp only [Bool.false_eq_true, if_false, Run.mk.injEq]
        exact ⟨trivial, by omega, trivial, by omega⟩
    rw [hadv]
    simp only [List.singleton_append, detectRunsMCGo, hab, hmb, hbne,
      Bool.false_eq_true, if_false, if_true, List.nil_append]
    rw [if_neg (by omega : ¬ 6 ≤ 2)]

/-- C3 amended-claim witness: four three-pointers then a closer — the
play_analyzer run totals 12 (3 per play), the metrics run totals 8. -/
theorem c3_points_attribution_witness :
    detectRunsInGame c3Log = Except.ok [⟨some ("H"), 12, 0, 3⟩]
    ∧ detectRuns c3Log = Except.ok [⟨some ("H"), 8, 0, 3⟩] := by
  have h := c3_points_attribution_amended (List.replicate 4 c3Three) c3Closer ("H")
    (by decide)
    (by decide)
    (by decide)
    (by decide)
  exact ⟨by rw [show c3Log = List.replicate 4 c3Three ++ [c3Closer] from rfl, h.1]; decide,
         by rw [show c3Log = List.replicate 4 c3Three ++ [c3Closer] from rfl, h.2]; decide⟩

/-! ## Claim C4 -/

/-- Invariant of the lineup-tracking walk: every snapshot accumulated so far
has exactly five players, because emission is guarded by `card = 5`. -/
theorem trackGo_card (ps : List PlayRec) (st : LineupState) (acc : List Snapshot)
    (hacc : ∀ s ∈ acc, s.players.card = 5) (l : List Snapshot)
    (h : trackGo st acc ps = Except.ok l) : ∀ s ∈ l, s.players.card = 5 := by
  induction ps generalizing st acc with
  | nil =>
    simp only [trackGo] at h
    injection h with h'
    subst h'
    exact hacc
  | cons p ps ih =>
    simp only [trackGo] at h
    cases hA : p.action with
    | none => rw [hA] at h; simp at h
    | some a =>
      cases hT : p.ptype with
      | none => rw [hA, hT] at h; simp at h
      | some ty =>
        rw [hA, hT] at h
        simp only [] at h
        split at h
        · -- SUB action
          cases hP : p.player with
          | none => rw [hP] at h; exact ih _ _ hacc h
          | some pl =>
            rw [hP] at h
            simp only [] at h
            split at h
            · exact ih _ _ hacc h
            · cases hTm : p.team with
              | none => rw [hTm] at h; simp at h
              | some tm =>
                rw [hTm] at h
                simp only [] at h
                split at h
                · -- tm = "H"
                  split at h
                  · refine ih _ _ ?_ h
                    intro s hs
                    rcases List.mem_append.mp hs with hs' | hs'
                    · exact hacc s hs'
                    · simp only [List.mem_singleton] at hs'
                      subst hs'
                      assumption
                  · exact ih _ _ hacc h
                · split at h
                  · -- tm = "V"
                    split at h
                    · refine ih _ _ ?_ h
                      intro s hs
                      rcases List.mem_append.mp hs with hs' | hs'
                      · exact hacc s hs'
                      · simp only [List.mem_singleton] at hs'
                        subst hs'
                        assumption
                    · exact ih _ _ hacc h
                  · simp at h
        · exact ih _ _ hacc h

/-- C4: every lineup snapshot emitted by `_track_lineups` contains exactly
five players; while a side's on-court set has any other size, no snapshot is
emitted for that side (the emission guard is `len(current_lineup[team])==5`). -/
theorem c4_lineup_five (plays : List PlayRec)
    (players : List (String × ParsedPlayer)) (l : List Snapshot)
    (h : trackLineups plays players = Except.ok l) :
    ∀ s ∈ l, s.players.card = 5 := by
  unfold trackLineups at h
  exact trackGo_card plays _ [] (fun s hs => absurd hs (List.not_mem_nil s)) l h

/-- A tracked-side substitution-in play. -/
def c4SubIn (nm : String) : PlayRec :=
  { pid := 0, period := "1", time := "05:00", team := some ("H"),
    player := some nm, action := some ("SUB"), ptype := some ("IN"),
    hscore := 0, vscore := 0, ptext := "" }

/-- Five tracked-side entries with distinct players. -/
def c4Plays : List PlayRec :=
  [c4SubIn ("P One"), c4SubIn ("P Two"), c4SubIn ("P Three"),
   c4SubIn ("P Four"), c4SubIn ("P Five")]

/-- C4 witness: a concrete log that emits a (nonempty) snapshot list, all of
whose snapshots have exactly five players. -/
theorem c4_lineup_five_witness :
    ∃ l, trackLineups c4Plays [] = Except.ok l ∧ l ≠ [] ∧
      ∀ s ∈ l, s.players.card = 5 :=
  ⟨_, rfl, by decide, c4_lineup_five c4Plays [] _ rfl⟩

/-! ## Claim C5 -/

/-- C5: batch ingestion collects the parsed game of every parseable document
in order, logs one failure message per failing document, and never lets one
failure abort the rest; in particular one parseable plus one unparseable
document yield exactly one game and one logged failure. -/
theorem c5_batch_isolation {α γ : Type} (parse : α → Except String γ)
    (nameOf : α → String) (files : List α) :
    (loadFromUploads parse nameOf files).1 =
      files.filterMap (fun f => (parse f).toOption)
    ∧ (loadFromUploads parse nameOf files).2 =
      files.filterMap (fun f =>
        match parse f with
        | Except.ok _ => none
        | Except.error e => some ("Error parsing " ++ nameOf f ++ ": " ++ e))
    ∧ ∀ (d1 d2 : α) (g : γ) (e : String),
        parse d1 = Except.ok g → parse d2 = Except.error e →
        loadFromUploads parse nameOf [d1, d2] =
          ([g], ["Error parsing " ++ nameOf d2 ++ ": " ++ e]) := by
  refine ⟨?_, ?_, ?_⟩
  · induction files with
    | nil => rfl
    | cons f fs ih =>
      simp only [loadFromUploads, List.filterMap_cons]
      cases hf : parse f <;> simp [hf, ih, Except.toOption]
  · induction files with
    | nil => rfl
    | cons f fs ih =>
      simp only [loadFromUploads, List.filterMap_cons]
      cases hf : parse f <;> simp [hf, ih]
  · intro d1 d2 g e h1 h2
    simp [loadFromUploads, h1, h2]

/-- C5 witness: a concrete two-document batch (one parseable, one with an
unrecognized root) yields exactly one game and one logged failure. -/
theorem c5_batch_isolation_witness :
    loadFromUploads
      (fun b : Bool => if b then Except.ok (1 : Nat)
        else Except.error ("unrecognized root"))
      (fun b : Bool => if b then "game1.xml" else "bad.xml")
      [true, false] =
      ([1], ["Error parsing bad.xml: unrecognized root"]) :=
  (c5_batch_isolation
    (fun b : Bool => if b then Except.ok (1 : Nat)
      else Except.error ("unrecognized root"))
    (fun b : Bool => if b then "game1.xml" else "bad.xml")
    [true, false]).2.2 true false 1 ("unrecognized root") rfl rfl

/-! ## Claim C7 -/

/-- C7: effective field-goal percentage is at least field-goal percentage
whenever the aggregated three-point makes are positive, and equals it when
they are zero (metrics_calculator.py 91 and 105 share the `fga > 0` guard). -/
theorem c7_efg_ge_fg (recs : List PGameRec) :
    (0 < seasonTotal recs ("fgm3") →
      (metricsOf recs).FGp ≤ (metricsOf recs).eFGp)
    ∧ (seasonTotal recs ("fgm3") = 0 →
      (metricsOf recs).eFGp = (metricsOf recs).FGp) := by
  constructor
  · intro h3
    simp only [metricsOf, mkMetrics]
    by_cases hf : 0 < seasonTotal recs ("fga")
    · rw [if_pos hf, if_pos hf]
      have h2 : seasonTotal recs ("fgm") ≤
          seasonTotal recs ("fgm") + (1 / 2) * seasonTotal recs ("fgm3") := by
        nlinarith
      exact (div_le_div_iff_of_pos_right hf).mpr h2
    · rw [if_neg hf, if_neg hf]
  · intro h0
    simp only [metricsOf, mkMetrics, h0]
    by_cases hf : 0 < seasonTotal recs ("fga")
    · rw [if_pos hf, if_pos hf, mul_zero, add_zero]
    · rw [if_neg hf, if_neg hf]

/-- A one-game season line with one three among two field-goal attempts. -/
def c7Recs : List PGameRec :=
  [{ game_id := "g1.xml", date := "11/05/2025", opponent := "Utah",
     result := "W",
     stats := [("fgm", StatVal.num 1), ("fga", StatVal.num 2),
       ("fgm3", StatVal.num 1)],
     quarter_stats := [] }]

/-- C7 witness at a concrete season line with positive three-point makes. -/
theorem c7_efg_ge_fg_witness :
    0 < seasonTotal c7Recs ("fgm3") ∧
      (metricsOf c7Recs).FGp ≤ (metricsOf c7Recs).eFGp := by
  have hpos : 0 < seasonTotal c7Recs ("fgm3") := by
    simp [c7Recs, seasonTotal, statsTotal, statNum]
  exact ⟨hpos, (c7_efg_ge_fg c7Recs).1 hpos⟩

/-! ## Claim C9 -/

/-- A team element whose linescore carries a decimal score text. -/
def c9Team : TeamElem :=
  { vh := some ("H"), tid := none, code := none, name := some ("Colorado"),
    teamname := none,
    linescore := some { score := some ("75.5"), lineprds := [] },
    totals := some [("fgpct", "45.5")] }

/-- C9 counterexample: the totals coercion turns the decimal text `"75.5"`
into a float, but the same text as a linescore score makes `_extract_teams`
raise (`int('75.5')` has no try/except), so coercion is not raise-free for
score fields. -/
theorem c9_score_coercion_counterexample :
    coerceStat ("75.5") = StatVal.num (151 / 2)
    ∧ extractTeam c9Team = Except.error () := by
  constructor
  · simp +decide [coerceStat, pyFloat, pyFloatCore, stripWS, dropTrail,
      digitsVal, parseExp] <;> norm_num
  · decide

/-- C9 (amended): the try/except coercion used for team totals, player totals
and per-quarter totals never raises — a decimal-pointed value goes through
float parsing, an undotted value through int parsing, and any failure keeps
the raw text — but score fields are converted with a bare `int()`, which
raises on any present non-integer text (decimal-pointed values included). -/
theorem c9_coercion_amended :
    (∀ v : String, (∃ q, coerceStat v = StatVal.num q) ∨ coerceStat v = StatVal.text v)
    ∧ (∀ (v : String) (q : ℚ), v.toList.contains '.' = true → pyFloat v = some q →
        coerceStat v = StatVal.num q)
    ∧ (∀ (v : String) (n : Int), v.toList.contains '.' = false → pyInt v = some n →
        coerceStat v = StatVal.num (n : ℚ))
    ∧ (∀ s : String, s ≠ "" → pyInt s = none → intOrZero (some s) = Except.error ()) := by
  refine ⟨?_, ?_, ?_, ?_⟩
  · intro v
    unfold coerceStat
    by_cases hd : v.toList.contains '.'
    · rw [if_pos hd]
      cases hf : pyFloat v
      · exact Or.inr rfl
      · exact Or.inl ⟨_, rfl⟩
    · rw [if_neg hd]
      cases hi : pyInt v
      · exact Or.inr rfl
      · exact Or.inl ⟨_, rfl⟩
  · intro v q hd hf
    unfold coerceStat
    rw [if_pos hd, hf]
  · intro v n hd hi
    unfold coerceStat
    rw [if_neg (by rw [hd]; simp), hi]
  · intro s hs hi
    simp only [intOrZero]
    rw [if_neg hs, hi]

/-- C9 amended-claim witness: `"7.5"` coerces to the float `15/2` under the
totals rule yet raises under the score conversion. -/
theorem c9_coercion_witness :
    coerceStat ("7.5") = StatVal.num (15 / 2)
    ∧ intOrZero (some ("7.5")) = Except.error () := by
  constructor
  · exact c9_coercion_amended.2.1 ("7.5") (15 / 2) (by decide)
      (by simp +decide [pyFloat, pyFloatCore, stripWS, dropTrail, digitsVal,
            parseExp] <;> norm_num)
  · exact c9_coercion_amended.2.2.2 ("7.5") (by decide) (by decide)

/-! ## Claim C10 -/

/-- A team-level pseudo-player row (missing/empty name or case-insensitive
`TEAM`) is rejected by `_extract_player_stats`. -/
theorem extractPlayerStats_none (e : PlayerElem) (h : isTeamRow e = true)
    (tid : String) (b : Bool) : extractPlayerStats e tid b = none := by
  unfold isTeamRow at h
  cases hr : rawName e with
  | none => simp [extractPlayerStats, hr]
  | some s =>
    rw [hr] at h
    simp only [Bool.or_eq_true, beq_iff_eq] at h
    simp [extractPlayerStats, hr, h]

/-- Dropping a pseudo-player element from a team's element list does not
change the extracted player fold. -/
theorem extractPlayersList_skip (l1 l2 : List PlayerElem) (e : PlayerElem)
    (h : isTeamRow e = true) (tid : String) (b : Bool)
    (acc : List (String × ParsedPlayer)) :
    extractPlayersList (l1 ++ e :: l2) tid b acc =
      extractPlayersList (l1 ++ l2) tid b acc := by
  unfold extractPlayersList
  rw [List.foldl_append, List.foldl_append, List.foldl_cons,
    extractPlayerStats_none e h]

/-- C10: a player element whose name is absent (or empty) or equals `TEAM`
case-insensitively contributes nothing to the game's player mapping —
removing it from any position of any team's element list leaves
`_extract_all_players` unchanged. -/
theorem c10_team_row_excluded (teams1 teams2 : List (String × List PlayerElem))
    (tid : String) (l1 l2 : List PlayerElem) (e : PlayerElem) (cu : String)
    (h : isTeamRow e = true) :
    extractAllPlayers (teams1 ++ (tid, l1 ++ e :: l2) :: teams2) cu =
      extractAllPlayers (teams1 ++ (tid, l1 ++ l2) :: teams2) cu := by
  unfold extractAllPlayers
  simp only [List.foldl_append, List.foldl_cons]
  rw [extractPlayersList_skip l1 l2 e h]

/-- A regular player element. -/
def c10Good : PlayerElem :=
  { name := some ("Sanders, Kennedy"), player := none, pos := some ("G"),
    position := none, uni := some ("3"), stats := some [("tp", "12")],
    statsbyprd := [] }

/-- A team-level pseudo-player row (`name="Team"`). -/
def c10Bad : PlayerElem :=
  { name := some ("Team"), player := none, pos := none, position := none,
    uni := none, stats := some [("tp", "30")], statsbyprd := [] }

/-- C10 witness: the `Team` row is excluded from the mapping. -/
theorem c10_team_row_excluded_witness :
    extractAllPlayers [("H", [c10Good, c10Bad])] ("H") =
      extractAllPlayers [("H", [c10Good])] ("H") :=
  c10_team_row_excluded [] [] ("H") [c10Good] [] c10Bad ("H") (by decide)

/-! ## Claim C6 -/

/-- The same player listed at guard in one game... (position `G`). -/
def c6PlayerG : ParsedPlayer :=
  { name := "Ann Black", position := "G", uniform := "3", team := "H",
    is_cu := true, stats := [("tp", StatVal.num 10)], quarter_stats := [] }

/-- ... and at center in another game (position `C`). -/
def c6PlayerC : ParsedPlayer :=
  { name := "Ann Black", position := "C", uniform := "3", team := "H",
    is_cu := true, stats := [("tp", StatVal.num 8)], quarter_stats := [] }

/-- Game one, where the player is listed at `G`. -/
def c6G1 : MGame :=
  { filename := "g1.xml", date := "11/01/2025", opponent := "Utah",
    result := "W", players := [("Ann Black", c6PlayerG)] }

/-- Game two, where the player is listed at `C`. -/
def c6G2 : MGame :=
  { filename := "g2.xml", date := "11/05/2025", opponent := "Stanford",
    result := "L", players := [("Ann Black", c6PlayerC)] }

/-- C6 counterexample: permuting the two games changes the profile's
position (`_get_player_position` reads the first game in input order), so
`calculate_all_player_metrics` is not permutation-invariant as claimed. -/
theorem c6_position_order_counterexample :
    [c6G1, c6G2].Perm [c6G2, c6G1]
    ∧ (calcAll [c6G1, c6G2]).map (fun p => p.position) = ["G"]
    ∧ (calcAll [c6G2, c6G1]).map (fun p => p.position) = ["C"] := by
  refine ⟨List.Perm.swap _ _ _, ?_, ?_⟩ <;> decide

/-- Permuting the games permutes the player-record pair stream. -/
theorem allRecs_perm {gs gs' : List MGame} (h : gs.Perm gs') :
    (allRecs gs).Perm (allRecs gs') :=
  h.flatMap_right gameRecsFor

/-- Permuting the games permutes each player's per-game record list. -/
theorem playerGames_perm (n : String) {gs gs' : List MGame} (h : gs.Perm gs') :
    (playerGames n gs).Perm (playerGames n gs') :=
  (allRecs_perm h).filterMap _

/-- Season totals are sums, hence permutation-invariant. -/
theorem seasonTotal_perm (n k : String) {gs gs' : List MGame} (h : gs.Perm gs') :
    seasonTotal (playerGames n gs) k = seasonTotal (playerGames n gs') k :=
  ((playerGames_perm n h).map _).sum_eq

/-- The totals-derived metric block is permutation-invariant. -/
theorem metricsOf_playerGames_eq (n : String) {gs gs' : List MGame}
    (h : gs.Perm gs') :
    metricsOf (playerGames n gs) = metricsOf (playerGames n gs') := by
  unfold metricsOf
  have hlen : (playerGames n gs).length = (playerGames n gs').length :=
    (playerGames_perm n h).length_eq
  have hfun : seasonTotal (playerGames n gs) = seasonTotal (playerGames n gs') := by
    funext k
    exact seasonTotal_perm n k h
  rw [hlen, hfun]

/-- Membership in the first-appearance deduplication. -/
theorem mem_insertOrderAux (x : String) (seen l : List String) :
    x ∈ insertOrderAux seen l ↔ x ∈ l ∧ x ∉ seen := by
  induction l generalizing seen with
  | nil => simp [insertOrderAux]
  | cons n ns ih =>
    simp only [insertOrderAux]
    by_cases hn : seen.contains n
    · rw [if_pos hn, ih]
      have hnse : n ∈ seen := by simpa using hn
      constructor
      · rintro ⟨hx, hs⟩
        exact ⟨List.mem_cons_of_mem n hx, hs⟩
      · rintro ⟨hx, hs⟩
        rcases List.mem_cons.mp hx with rfl | hx'
        · exact absurd hnse hs
        · exact ⟨hx', hs⟩
    · rw [if_neg hn]
      have hnse : n ∉ seen := by simpa using hn
      simp only [List.mem_cons, ih]
      constructor
      · rintro (rfl | ⟨hx, hs⟩)
        · exact ⟨Or.inl rfl, hnse⟩
        · exact ⟨Or.inr hx, fun hc => hs (Or.inr hc)⟩
      · rintro ⟨rfl | hx, hs⟩
        · exact Or.inl rfl
        · by_cases hxn : x = n
          · exact Or.inl hxn
          · exact Or.inr ⟨hx, by simp [hxn, hs]⟩

/-- The first-appearance deduplication has no duplicates. -/
theorem nodup_insertOrderAux (seen l : List String) :
    (insertOrderAux seen l).Nodup := by
  induction l generalizing seen with
  | nil => simp [insertOrderAux]
  | cons n ns ih =>
    simp only [insertOrderAux]
    by_cases hn : seen.contains n
    · rw [if_pos hn]
      exact ih seen
    · rw [if_neg hn]
      refine List.nodup_cons.mpr ⟨?_, ih (n :: seen)⟩
      intro hmem
      exact ((mem_insertOrderAux n (n :: seen) ns).mp hmem).2 (List.mem_cons_self n seen)

/-- The key sequence of `player_game_stats` is permuted along with the games
(same players, possibly different first-appearance order). -/
theorem cuNamesOrdered_perm {gs gs' : List MGame} (h : gs.Perm gs') :
    (cuNamesOrdered gs).Perm (cuNamesOrdered gs') := by
  have hmap : (((allRecs gs).map (fun r => r.1))).Perm
      ((allRecs gs').map (fun r => r.1)) := (allRecs_perm h).map _
  have hm : ∀ x, x ∈ cuNamesOrdered gs ↔ x ∈ cuNamesOrdered gs' := by
    intro x
    rw [cuNamesOrdered, cuNamesOrdered, mem_insertOrderAux, mem_insertOrderAux,
      hmap.mem_iff]
  exact (List.perm_ext_iff_of_nodup (nodup_insertOrderAux _ _)
    (nodup_insertOrderAux _ _)).mpr hm

/-- C6 (amended): for every permutation of the game collection,
`calculate_all_player_metrics` yields the same players with the same
games-played counts and the same totals-derived metric values (as a
permutation of profiles); the recorded position and the profile order,
however, follow the input order of the games and are not invariant. -/
theorem c6_order_invariant_amended (gs gs' : List MGame) (h : gs.Perm gs') :
    ((calcAll gs).map (fun p => (p.name, p.games_played, p.metrics))).Perm
      ((calcAll gs').map (fun p => (p.name, p.games_played, p.metrics))) := by
  have key : ∀ hs : List MGame,
      (calcAll hs).map (fun p => (p.name, p.games_played, p.metrics)) =
        (cuNamesOrdered hs).filterMap (fun n =>
          if (playerGames n hs).isEmpty then none
          else some (n, (playerGames n hs).length, metricsOf (playerGames n hs))) := by
    intro hs
    rw [calcAll, List.map_filterMap]
    refine congrArg (fun f => List.filterMap f (cuNamesOrdered hs)) (funext fun n => ?_)
    by_cases he : (playerGames n hs).isEmpty
    · simp [he]
    · simp [he]
  rw [key gs, key gs']
  have hfeq : (fun n =>
      if (playerGames n gs).isEmpty then none
      else some (n, (playerGames n gs).length, metricsOf (playerGames n gs))) =
      (fun n =>
      if (playerGames n gs').isEmpty then none
      else some (n, (playerGames n gs').length, metricsOf (playerGames n gs'))) := by
    funext n
    rw [(playerGames_perm n h).isEmpty_eq, (playerGames_perm n h).length_eq,
      metricsOf_playerGames_eq n h]
  rw [hfeq]
  exact (cuNamesOrdered_perm h).filterMap _

/-- C6 amended-claim witness at the concrete two-game swap. -/
theorem c6_order_invariant_witness :
    ((calcAll [c6G1, c6G2]).map (fun p => (p.name, p.games_played, p.metrics))).Perm
      ((calcAll [c6G2, c6G1]).map (fun p => (p.name, p.games_played, p.metrics))) :=
  c6_order_invariant_amended [c6G1, c6G2] [c6G2, c6G1] (List.Perm.swap _ _ _)

/-! ## Claim C8: normalization machinery

The idempotence proof characterizes the strings `_normalize_name` can
return: whitespace-collapsed (no runs, no edges, only plain blanks) and
comma-free.  Such strings are fixed points of the normalizer. -/

/-- A word produced by `str.split()`: nonempty and whitespace-free. -/
def GoodWord (w : List Char) : Prop := w ≠ [] ∧ ∀ c ∈ w, isSpc c = false

/-- All words of a split are good. -/
def GoodWords (ws : List (List Char)) : Prop := ∀ w ∈ ws, GoodWord w

/-- Every whitespace character of the text is a plain blank. -/
def OnlyBlank (t : List Char) : Prop := ∀ c ∈ t, isSpc c = true → c = ' '

/-- No two adjacent whitespace characters. -/
def NoAdj (t : List Char) : Prop :=
  t.Chain' (fun a b => ¬(isSpc a = true ∧ isSpc b = true))

/-- The first character (if any) is not whitespace. -/
def HeadOK (t : List Char) : Prop := ∀ c, t.head? = some c → isSpc c = false

/-- The last character (if any) is not whitespace. -/
def LastOK (t : List Char) : Prop := ∀ c, t.getLast? = some c → isSpc c = false

theorem wordsAux_good (l : List Char) : ∀ acc, (∀ c ∈ acc, isSpc c = false) →
    GoodWords (wordsAux acc l) := by
  induction l with
  | nil =>
    intro acc hacc
    simp only [wordsAux]
    by_cases he : acc.isEmpty
    · rw [if_pos he]
      intro w hw
      exact absurd hw (List.not_mem_nil w)
    · rw [if_neg he]
      intro w hw
      rw [List.mem_singleton] at hw
      subst hw
      refine ⟨by simpa [List.isEmpty_iff] using he, ?_⟩
      intro c hc
      exact hacc c (List.mem_reverse.mp hc)
  | cons c cs ih =>
    intro acc hacc
    simp only [wordsAux]
    by_cases hs : isSpc c
    · rw [if_pos hs]
      by_cases he : acc.isEmpty
      · rw [if_pos he]
        exact ih [] (by intro x hx; exact absurd hx (List.not_mem_nil x))
      · rw [if_neg he]
        intro w hw
        rcases List.mem_cons.mp hw with rfl | hw'
        · refine ⟨by simpa [List.isEmpty_iff] using he, ?_⟩
          intro x hx
          exact hacc x (List.mem_reverse.mp hx)
        · exact ih [] (by intro x hx; exact absurd hx (List.not_mem_nil x)) w hw'
    · rw [if_neg hs]
      refine ih (c :: acc) ?_
      intro x hx
      rcases List.mem_cons.mp hx with rfl | hx'
      · simpa using hs
      · exact hacc x hx'

/-- Every word of `words l` is nonempty and whitespace-free. -/
theorem words_good (l : List Char) : GoodWords (words l) :=
  wordsAux_good l [] (by intro x hx; exact absurd hx (List.not_mem_nil x))

theorem wordsAux_append (w : List Char) (hw : ∀ c ∈ w, isSpc c = false) :
    ∀ (acc l : List Char), wordsAux acc (w ++ l) = wordsAux (w.reverse ++ acc) l := by
  induction w with
  | nil => intro acc l; simp
  | cons c cs ih =>
    intro acc l
    have hc : isSpc c = false := hw c (by simp)
    simp only [List.cons_append, wordsAux, hc, Bool.false_eq_true, if_false,
      List.append_eq]
    rw [ih (fun x hx => hw x (by simp [hx])) (c :: acc) l]
    simp

theorem wordsAux_ne_nil (l : List Char) : ∀ acc, acc ≠ [] → wordsAux acc l ≠ [] := by
  induction l with
  | nil =>
    intro acc hacc
    simp only [wordsAux]
    rw [if_neg (by simpa [List.isEmpty_iff] using hacc)]
    simp
  | cons c cs ih =>
    intro acc hacc
    simp only [wordsAux]
    by_cases hs : isSpc c
    · rw [if_pos hs, if_neg (by simpa [List.isEmpty_iff] using hacc)]
      simp
    · rw [if_neg hs]
      exact ih (c :: acc) (by simp)

/-- A single good word splits to itself. -/
theorem words_single (w : List Char) (hw : GoodWord w) : words w = [w] := by
  have h := wordsAux_append w hw.2 [] []
  rw [List.append_nil] at h
  unfold words
  rw [h]
  simp only [wordsAux, List.append_nil]
  rw [if_neg (by simpa [List.isEmpty_iff, List.reverse_eq_nil_iff] using hw.1)]
  simp

/-- A good word followed by a whitespace separator splits off. -/
theorem words_append_sep (w : List Char) (hw : GoodWord w) (c : Char)
    (hc : isSpc c = true) (r : List Char) :
    words (w ++ c :: r) = w :: words r := by
  unfold words
  rw [wordsAux_append w hw.2 [] (c :: r)]
  simp only [List.append_nil, wordsAux, hc, if_true]
  rw [if_neg (by simpa [List.isEmpty_iff, List.reverse_eq_nil_iff] using hw.1)]
  simp

/-- `words` is a left inverse of `joinWords` on good word lists. -/
theorem words_joinWords : ∀ ws : List (List Char), GoodWords ws →
    words (joinWords ws) = ws := by
  intro ws
  induction ws with
  | nil => intro _; rfl
  | cons w ws ih =>
    intro h
    cases ws with
    | nil =>
      simp only [joinWords]
      exact words_single w (h w (by simp))
    | cons w' ws' =>
      simp only [joinWords]
      rw [words_append_sep w (h w (by simp)) ' ' (by decide) (joinWords (w' :: ws'))]
      rw [ih (fun v hv => h v (by simp [hv]))]

/-- Whitespace collapsing is idempotent. -/
theorem collapse_idem (l : List Char) : collapse (collapse l) = collapse l := by
  unfold collapse
  rw [words_joinWords (words l) (words_good l)]

theorem joinWords_cons_ne (w : List Char) (ws : List (List Char))
    (h : ws ≠ []) : joinWords (w :: ws) = w ++ ' ' :: joinWords ws := by
  cases ws with
  | nil => exact absurd rfl h
  | cons w' ws' => rfl

theorem joinWords_ne_nil (w : List Char) (ws : List (List Char))
    (hw : w ≠ []) : joinWords (w :: ws) ≠ [] := by
  cases ws with
  | nil => simpa [joinWords] using hw
  | cons w' ws' => simp [joinWords]

theorem joinWords_headok : ∀ ws : List (List Char), GoodWords ws →
    HeadOK (joinWords ws) := by
  intro ws
  cases ws with
  | nil => intro _ c hc; simp [joinWords] at hc
  | cons w ws =>
    intro h c hc
    obtain ⟨hne, hgood⟩ := h w (by simp)
    obtain ⟨a, w0, rfl⟩ : ∃ a w0, w = a :: w0 := by
      cases w with
      | nil => exact absurd rfl hne
      | cons a w0 => exact ⟨a, w0, rfl⟩
    cases ws with
    | nil =>
      simp only [joinWords, List.head?_cons] at hc
      cases hc
      exact hgood c (by simp)
    | cons w' ws' =>
      simp only [joinWords, List.cons_append, List.head?_cons] at hc
      cases hc
      exact hgood c (by simp)

/-- The last element of `l₁ ++ b :: l₂` is the last element of `b :: l₂`. -/
theorem getLast?_append_cons (l₁ : List Char) (b : Char) (l₂ : List Char) :
    (l₁ ++ b :: l₂).getLast? = (b :: l₂).getLast? := by
  rw [List.getLast?_append]
  cases hg : (b :: l₂).getLast? with
  | none => simp [List.getLast?_cons] at hg
  | some x => rfl

/-- Dropping the head does not change the last element of a list with a
nonempty tail. -/
theorem getLast?_cons_ne (b : Char) (l : List Char) (h : l ≠ []) :
    (b :: l).getLast? = l.getLast? := by
  cases l with
  | nil => exact absurd rfl h
  | cons x xs => exact List.getLast?_cons_cons

theorem joinWords_lastok : ∀ ws : List (List Char), GoodWords ws →
    LastOK (joinWords ws) := by
  intro ws
  induction ws with
  | nil => intro _ c hc; simp [joinWords] at hc
  | cons w ws ih =>
    intro h c hc
    cases ws with
    | nil =>
      simp only [joinWords] at hc
      exact (h w (by simp)).2 c (List.mem_of_mem_getLast? (Option.mem_def.mpr hc))
    | cons w' ws' =>
      simp only [joinWords] at hc
      rw [getLast?_append_cons] at hc
      have hJ : joinWords (w' :: ws') ≠ [] :=
        joinWords_ne_nil w' ws' (h w' (by simp)).1
      rw [getLast?_cons_ne ' ' _ hJ] at hc
      exact ih (fun v hv => h v (by simp [hv])) c hc

theorem joinWords_onlyblank : ∀ ws : List (List Char), GoodWords ws →
    OnlyBlank (joinWords ws) := by
  intro ws
  induction ws with
  | nil => intro _ c hc; simp [joinWords] at hc
  | cons w ws ih =>
    intro h c hc hs
    cases ws with
    | nil =>
      simp only [joinWords] at hc
      exact absurd hs (by simp [(h w (by simp)).2 c hc])
    | cons w' ws' =>
      simp only [joinWords] at hc
      rcases List.mem_append.mp hc with hc' | hc'
      · exact absurd hs (by simp [(h w (by simp)).2 c hc'])
      · rcases List.mem_cons.mp hc' with rfl | hc''
        · rfl
        · exact ih (fun v hv => h v (by simp [hv])) c hc'' hs

/-- A whitespace-free list is trivially adjacent-whitespace-free. -/
theorem chain'_of_nonspace (w : List Char) (hw : ∀ c ∈ w, isSpc c = false) :
    NoAdj w := by
  induction w with
  | nil => exact List.chain'_nil
  | cons a l ih =>
    rw [NoAdj, List.chain'_cons']
    refine ⟨?_, ih (fun c hc => hw c (by simp [hc]))⟩
    intro y _ hcon
    have := hw a (by simp)
    rw [hcon.1] at this
    cases this

theorem joinWords_noadj : ∀ ws : List (List Char), GoodWords ws →
    NoAdj (joinWords ws) := by
  intro ws
  induction ws with
  | nil => exact fun _ => List.chain'_nil
  | cons w ws ih =>
    intro h
    cases ws with
    | nil =>
      simp only [joinWords]
      exact chain'_of_nonspace w (h w (by simp)).2
    | cons w' ws' =>
      simp only [joinWords]
      rw [NoAdj, List.chain'_append]
      refine ⟨chain'_of_nonspace w (h w (by simp)).2, ?_, ?_⟩
      · rw [List.chain'_cons']
        refine ⟨?_, ih (fun v hv => h v (by simp [hv]))⟩
        intro y hy hcon
        have hok := joinWords_headok (w' :: ws') (fun v hv => h v (by simp [hv]))
        have := hok y hy
        rw [hcon.2] at this
        cases this
      · intro x hx y hy hcon
        have := (h w (by simp)).2 x (List.mem_of_mem_getLast? hx)
        rw [hcon.1] at this
        cases this

/-! ### Strip lemmas -/

theorem dropWhile_headok (l : List Char) : HeadOK (l.dropWhile isSpc) := by
  induction l with
  | nil => intro c hc; simp at hc
  | cons a l ih =>
    intro c hc
    by_cases hs : isSpc a
    · rw [List.dropWhile_cons_of_pos hs] at hc
      exact ih c hc
    · rw [List.dropWhile_cons_of_neg hs] at hc
      simp only [List.head?_cons] at hc
      cases hc
      simpa using hs

theorem dropWhile_eq_self_of_headok (l : List Char) (h : HeadOK l) :
    l.dropWhile isSpc = l := by
  cases l with
  | nil => rfl
  | cons a l =>
    have := h a (by simp)
    rw [List.dropWhile_cons_of_neg (by simp [this])]

/-- A prefix of a list shares its head. -/
theorem headok_of_prefix {l₁ l₂ : List Char} (h : l₁ <+: l₂) (hok : HeadOK l₂) :
    HeadOK l₁ := by
  intro c hc
  obtain ⟨t, rfl⟩ := h
  cases l₁ with
  | nil => simp at hc
  | cons a l =>
    simp only [List.head?_cons] at hc
    cases hc
    exact hok c (by simp)

/-- `dropTrail` is a prefix of its argument. -/
theorem dropTrail_isPrefix (l : List Char) : dropTrail l <+: l := by
  unfold dropTrail
  have hs : l.reverse.dropWhile isSpc <:+ l.reverse := List.dropWhile_suffix isSpc
  obtain ⟨t, ht⟩ := hs
  refine ⟨t.reverse, ?_⟩
  have := congrArg List.reverse ht
  simpa [List.reverse_append] using this

theorem stripWS_headok (l : List Char) : HeadOK (stripWS l) :=
  headok_of_prefix (dropTrail_isPrefix _) (dropWhile_headok l)

theorem stripWS_lastok (l : List Char) : LastOK (stripWS l) := by
  intro c hc
  unfold stripWS dropTrail at hc
  rw [List.getLast?_reverse] at hc
  exact dropWhile_headok _ c hc

theorem stripWS_eq_self (l : List Char) (h1 : HeadOK l) (h2 : LastOK l) :
    stripWS l = l := by
  unfold stripWS dropTrail
  rw [dropWhile_eq_self_of_headok l h1]
  rw [dropWhile_eq_self_of_headok l.reverse (by
    intro c hc
    rw [List.head?_reverse] at hc
    exact h2 c hc)]
  exact List.reverse_reverse l

theorem mem_stripWS {c : Char} {l : List Char} (h : c ∈ stripWS l) : c ∈ l := by
  unfold stripWS dropTrail at h
  have h1 := List.mem_reverse.mp h
  have h2 := (List.dropWhile_sublist isSpc).subset h1
  have h3 := List.mem_reverse.mp h2
  exact (List.dropWhile_sublist isSpc).subset h3

theorem onlyblank_stripWS {l : List Char} (h : OnlyBlank l) :
    OnlyBlank (stripWS l) :=
  fun c hc hs => h c (mem_stripWS hc) hs

theorem chain'_dropWhile {R : Char → Char → Prop} {l : List Char}
    (h : l.Chain' R) (p : Char → Bool) : (l.dropWhile p).Chain' R := by
  induction l with
  | nil => exact List.chain'_nil
  | cons a l ih =>
    by_cases hp : p a
    · rw [List.dropWhile_cons_of_pos hp]
      exact ih h.tail
    · rw [List.dropWhile_cons_of_neg hp]
      exact h

theorem noadj_reverse {l : List Char} (h : NoAdj l) : NoAdj l.reverse := by
  rw [NoAdj, List.chain'_reverse]
  exact h.imp (fun a b hab hcon => hab ⟨hcon.2, hcon.1⟩)

theorem noadj_stripWS {l : List Char} (h : NoAdj l) : NoAdj (stripWS l) := by
  unfold stripWS dropTrail
  exact noadj_reverse (chain'_dropWhile (noadj_reverse (chain'_dropWhile h isSpc)) isSpc)

/-! ### Comma-split lemmas -/

theorem splitComma_ne_nil (l : List Char) : splitComma l ≠ [] := by
  cases l with
  | nil => simp [splitComma]
  | cons c cs =>
    simp only [splitComma]
    by_cases hc : c == ','
    · rw [if_pos hc]; simp
    · rw [if_neg hc]
      cases h : splitComma cs <;> simp

theorem splitComma_chars (l : List Char) :
    ∀ w ∈ splitComma l, ∀ c ∈ w, c ∈ l ∧ c ≠ ',' := by
  induction l with
  | nil =>
    intro w hw c hc
    simp only [splitComma, List.mem_singleton] at hw
    subst hw
    exact absurd hc (List.not_mem_nil c)
  | cons a cs ih =>
    intro w hw c hc
    simp only [splitComma] at hw
    by_cases ha : a == ','
    · rw [if_pos ha] at hw
      rcases List.mem_cons.mp hw with rfl | hw'
      · exact absurd hc (List.not_mem_nil c)
      · obtain ⟨h1, h2⟩ := ih w hw' c hc
        exact ⟨by simp [h1], h2⟩
    · rw [if_neg ha] at hw
      rcases hsc : splitComma cs with _ | ⟨w0, ws⟩
      · exact absurd hsc (splitComma_ne_nil cs)
      · rw [hsc] at hw
        rcases List.mem_cons.mp hw with rfl | hw'
        · rcases List.mem_cons.mp hc with rfl | hc'
          · exact ⟨by simp, by simpa using ha⟩
          · obtain ⟨h1, h2⟩ := ih w0 (by rw [hsc]; simp) c hc'
            exact ⟨by simp [h1], h2⟩
        · obtain ⟨h1, h2⟩ := ih w (by rw [hsc]; simp [hw']) c hc
          exact ⟨by simp [h1], h2⟩

/-- The head of the first comma piece is the head of the list. -/
theorem splitComma_first_head (l : List Char) (w : List Char)
    (ws : List (List Char)) (h : splitComma l = w :: ws) (c : Char)
    (hc : w.head? = some c) : l.head? = some c := by
  cases l with
  | nil =>
    simp only [splitComma] at h
    cases h
    simp at hc
  | cons a cs =>
    simp only [splitComma] at h
    by_cases ha : a == ','
    · rw [if_pos ha] at h
      cases h
      simp at hc
    · rw [if_neg ha] at h
      rcases hsc : splitComma cs with _ | ⟨w0, ws0⟩
      · exact absurd hsc (splitComma_ne_nil cs)
      · rw [hsc] at h
        cases h
        simp only [List.head?_cons] at hc
        simpa using hc

/-- Comma pieces of an adjacent-whitespace-free list are themselves
adjacent-whitespace-free. -/
theorem splitComma_noadj (l : List Char) (h : NoAdj l) :
    ∀ w ∈ splitComma l, NoAdj w := by
  induction l with
  | nil =>
    intro w hw
    simp only [splitComma, List.mem_singleton] at hw
    subst hw
    exact List.chain'_nil
  | cons a cs ih =>
    intro w hw
    simp only [splitComma] at hw
    by_cases ha : a == ','
    · rw [if_pos ha] at hw
      rcases List.mem_cons.mp hw with rfl | hw'
      · exact List.chain'_nil
      · exact ih h.tail w hw'
    · rw [if_neg ha] at hw
      rcases hsc : splitComma cs with _ | ⟨w0, ws⟩
      · exact absurd hsc (splitComma_ne_nil cs)
      · rw [hsc] at hw
        rcases List.mem_cons.mp hw with rfl | hw'
        · rw [NoAdj, List.chain'_cons']
          refine ⟨?_, ih h.tail w0 (by rw [hsc]; simp)⟩
          intro y hy hcon
          have hcs : cs.head? = some y := splitComma_first_head cs w0 ws hsc y hy
          have := (List.chain'_cons'.mp h).1 y hcs
          exact this hcon
        · exact ih h.tail w (by rw [hsc]; simp [hw'])

theorem splitComma_two (l : List Char) (h : l.contains ',' = true) :
    ∃ w0 w1 ws, splitComma l = w0 :: w1 :: ws := by
  induction l with
  | nil => simp at h
  | cons a cs ih =>
    simp only [splitComma]
    by_cases ha : a == ','
    · rw [if_pos ha]
      rcases hsc : splitComma cs with _ | ⟨w0, ws⟩
      · exact absurd hsc (splitComma_ne_nil cs)
      · exact ⟨[], w0, ws, rfl⟩
    · rw [if_neg ha]
      have hcs : cs.contains ',' = true := by
        rcases List.contains_iff_exists_mem_beq.mp h with ⟨x, hx, hbeq⟩
        have hxc : ',' = x := by simpa using hbeq
        subst hxc
        rcases List.mem_cons.mp hx with heq | hx'
        · exact absurd heq.symm (by simpa using ha)
        · exact List.contains_iff_exists_mem_beq.mpr ⟨',', hx', by decide⟩
      obtain ⟨w0, w1, ws, hsc⟩ := ih hcs
      rw [hsc]
      exact ⟨a :: w0, w1, ws, rfl⟩

/-! ### Fixed points of collapsing -/

theorem dropWhile_head_not (p : Char → Bool) (l : List Char) (d : Char)
    (ds : List Char) (h : l.dropWhile p = d :: ds) : p d = false := by
  induction l with
  | nil => simp at h
  | cons a t ih =>
    by_cases hp : p a
    · rw [List.dropWhile_cons_of_pos hp] at h
      exact ih h
    · rw [List.dropWhile_cons_of_neg hp] at h
      cases h
      simpa using hp

/-- A text with only single plain-blank separators, no whitespace at either
edge, is a fixed point of whitespace collapsing (length-bounded recursion). -/
theorem collapse_eq_self_aux : ∀ (n : Nat) (t : List Char), t.length ≤ n →
    OnlyBlank t → NoAdj t → HeadOK t → LastOK t → collapse t = t := by
  intro n
  induction n with
  | zero =>
    intro t hlen _ _ _ _
    have ht : t = [] := List.length_eq_zero.mp (Nat.le_zero.mp hlen)
    subst ht
    rfl
  | succ n ih =>
    intro t hlen h1 h2 h3 h4
    cases t with
    | nil => rfl
    | cons a t0 =>
      have ha : isSpc a = false := h3 a (by simp)
      rcases hrest : t0.dropWhile (fun c => !isSpc c) with _ | ⟨d, ds⟩
      · have htw : t0.takeWhile (fun c => !isSpc c) = t0 := by
          have hsplit := List.takeWhile_append_dropWhile (p := fun c => !isSpc c) (l := t0)
          rw [hrest, List.append_nil] at hsplit
          exact hsplit
        have hgw : GoodWord (a :: t0) := by
          refine ⟨by simp, ?_⟩
          intro c hc
          rcases List.mem_cons.mp hc with rfl | hc'
          · exact ha
          · have hmem : c ∈ t0.takeWhile (fun c => !isSpc c) := by
              rw [htw]; exact hc'
            simpa using List.mem_takeWhile_imp hmem
        unfold collapse
        rw [words_single _ hgw]
        rfl
      · have hw0d : t0.takeWhile (fun c => !isSpc c) ++ d :: ds = t0 := by
          have hsplit := List.takeWhile_append_dropWhile (p := fun c => !isSpc c) (l := t0)
          rw [hrest] at hsplit
          exact hsplit
        have hd : isSpc d = true := by
          have := dropWhile_head_not _ _ _ _ hrest
          simpa using this
        have hteq0 : a :: t0 = (a :: t0.takeWhile (fun c => !isSpc c)) ++ d :: ds := by
          rw [List.cons_append, hw0d]
        have hgw : GoodWord (a :: t0.takeWhile (fun c => !isSpc c)) := by
          refine ⟨by simp, ?_⟩
          intro c hc
          rcases List.mem_cons.mp hc with rfl | hc'
          · exact ha
          · simpa using List.mem_takeWhile_imp hc'
        have hdmem : d ∈ a :: t0 := by
          rw [hteq0]
          exact List.mem_append_right _ (by simp)
        have hdb : d = ' ' := h1 d hdmem hd
        have hchain2 : List.Chain'
            (fun a b => ¬(isSpc a = true ∧ isSpc b = true)) (d :: ds) := by
          have h2' : NoAdj ((a :: t0.takeWhile (fun c => !isSpc c)) ++ d :: ds) := by
            rw [← hteq0]; exact h2
          exact (List.chain'_append.mp h2').2.1
        have hds_head : HeadOK ds := by
          intro c hc
          have hpair := (List.chain'_cons'.mp hchain2).1 c hc
          by_contra hcc
          exact hpair ⟨hd, by simpa using hcc⟩
        have hne_ds : ds ≠ [] := by
          intro hds
          subst hds
          have hlast : (a :: t0).getLast? = some d := by
            rw [hteq0, getLast?_append_cons]
            rfl
          have := h4 d hlast
          rw [hd] at this
          cases this
        have honly_ds : OnlyBlank ds := by
          intro c hc hcs
          refine h1 c ?_ hcs
          rw [hteq0]
          exact List.mem_append_right _ (by simp [hc])
        have hnoadj_ds : NoAdj ds := (List.chain'_cons'.mp hchain2).2
        have hlast_ds : LastOK ds := by
          intro c hc
          refine h4 c ?_
          rw [hteq0, getLast?_append_cons, getLast?_cons_ne d ds hne_ds]
          exact hc
        have hlen_ds : ds.length ≤ n := by
          have hlen0 := congrArg List.length hw0d
          simp only [List.length_append, List.length_cons] at hlen0
          have hlen1 : (a :: t0).length ≤ n + 1 := hlen
          simp only [List.length_cons] at hlen1
          omega
        have hih : collapse ds = ds :=
          ih ds hlen_ds honly_ds hnoadj_ds hds_head hlast_ds
        have hwords_ne : words ds ≠ [] := by
          obtain ⟨e, ds', rfl⟩ : ∃ e ds', ds = e :: ds' := by
            cases ds with
            | nil => exact absurd rfl hne_ds
            | cons e ds' => exact ⟨e, ds', rfl⟩
          have he : isSpc e = false := hds_head e (by simp)
          unfold words
          simp only [wordsAux, he, Bool.false_eq_true, if_false]
          exact wordsAux_ne_nil ds' [e] (by simp)
        subst hdb
        unfold collapse
        rw [hteq0, words_append_sep _ hgw ' ' (by decide) ds,
          joinWords_cons_ne _ _ hwords_ne,
          show joinWords (words ds) = ds from hih]

/-- A text with only single plain-blank separators and no edge whitespace is
a fixed point of whitespace collapsing. -/
theorem collapse_eq_self (t : List Char) (h1 : OnlyBlank t) (h2 : NoAdj t)
    (h3 : HeadOK t) (h4 : LastOK t) : collapse t = t :=
  collapse_eq_self_aux t.length t (Nat.le_refl _) h1 h2 h3 h4

/-! ### The normalized-form characterization and idempotence -/

/-- The invariant of `_normalize_name` output: whitespace-collapsed and
comma-free. Such strings are fixed points of the normalizer. -/
def Normd (t : List Char) : Prop :=
  collapse t = t ∧ t.contains ',' = false

theorem contains_eq_false_of_not_mem {t : List Char} {c : Char} (h : c ∉ t) :
    t.contains c = false := by
  by_contra hcc
  have hct : t.contains c = true := by simpa using hcc
  rcases List.contains_iff_exists_mem_beq.mp hct with ⟨x, hx, hbeq⟩
  have hcx : c = x := by simpa using hbeq
  subst hcx
  exact h hx

theorem not_mem_of_contains_eq_false {t : List Char} {c : Char}
    (h : t.contains c = false) : c ∉ t := by
  intro hmem
  have : t.contains c = true :=
    List.contains_iff_exists_mem_beq.mpr ⟨c, hmem, by simp⟩
  rw [h] at this
  cases this

/-- A normalized string is a fixed point of `_normalize_name`. -/
theorem normName_of_normd (t : List Char) (h : Normd t) : normName t = t := by
  unfold normName
  rw [h.1]
  rw [if_neg (by rw [h.2]; simp)]
  have h3 : HeadOK t := by
    rw [← h.1]; exact joinWords_headok _ (words_good t)
  have h4 : LastOK t := by
    rw [← h.1]; exact joinWords_lastok _ (words_good t)
  exact stripWS_eq_self t h3 h4

/-- `_normalize_name` always outputs a normalized string. -/
theorem normd_normName (l : List Char) : Normd (normName l) := by
  unfold normName
  have hub : OnlyBlank (collapse l) := joinWords_onlyblank _ (words_good l)
  have hua : NoAdj (collapse l) := joinWords_noadj _ (words_good l)
  by_cases hc : (collapse l).contains ','
  · rw [if_pos hc]
    obtain ⟨w0, w1, ws, hsp⟩ := splitComma_two (collapse l) (by simpa using hc)
    have hw1mem : w1 ∈ splitComma (collapse l) := by rw [hsp]; simp
    have hw0mem : w0 ∈ splitComma (collapse l) := by rw [hsp]; simp
    have hget1 : (splitComma (collapse l)).getD 1 [] = w1 := by rw [hsp]; rfl
    have hget0 : (splitComma (collapse l)).getD 0 [] = w0 := by rw [hsp]; rfl
    rw [hget1, hget0]
    have hOBa : OnlyBlank (stripWS w1) :=
      onlyblank_stripWS (fun c hc' hs =>
        hub c (splitComma_chars (collapse l) w1 hw1mem c hc').1 hs)
    have hOBb : OnlyBlank (stripWS w0) :=
      onlyblank_stripWS (fun c hc' hs =>
        hub c (splitComma_chars (collapse l) w0 hw0mem c hc').1 hs)
    have hNAa : NoAdj (stripWS w1) :=
      noadj_stripWS (splitComma_noadj (collapse l) hua w1 hw1mem)
    have hNAb : NoAdj (stripWS w0) :=
      noadj_stripWS (splitComma_noadj (collapse l) hua w0 hw0mem)
    have hOBm : OnlyBlank (stripWS w1 ++ ' ' :: stripWS w0) := by
      intro c hcm hs
      rcases List.mem_append.mp hcm with h' | h'
      · exact hOBa c h' hs
      · rcases List.mem_cons.mp h' with rfl | h''
        · rfl
        · exact hOBb c h'' hs
    have hNAm : NoAdj (stripWS w1 ++ ' ' :: stripWS w0) := by
      rw [NoAdj, List.chain'_append]
      refine ⟨hNAa, ?_, ?_⟩
      · rw [List.chain'_cons']
        refine ⟨?_, hNAb⟩
        intro y hy hcon
        have := stripWS_headok w0 y hy
        rw [hcon.2] at this
        cases this
      · intro x hx y hy hcon
        have := stripWS_lastok w1 x hx
        rw [hcon.1] at this
        cases this
    constructor
    · exact collapse_eq_self _ (onlyblank_stripWS hOBm) (noadj_stripWS hNAm)
        (stripWS_headok _) (stripWS_lastok _)
    · refine contains_eq_false_of_not_mem ?_
      intro hmem
      have hmem' := mem_stripWS hmem
      rcases List.mem_append.mp hmem' with h' | h'
      · exact (splitComma_chars (collapse l) w1 hw1mem ',' (mem_stripWS h')).2 rfl
      · rcases List.mem_cons.mp h' with heq | h''
        · cases heq
        · exact (splitComma_chars (collapse l) w0 hw0mem ',' (mem_stripWS h'')).2 rfl
  · rw [if_neg hc]
    have hst : stripWS (collapse l) = collapse l :=
      stripWS_eq_self _ (joinWords_headok _ (words_good l))
        (joinWords_lastok _ (words_good l))
    rw [hst]
    exact ⟨collapse_idem l, by simpa using hc⟩

/-- C8: `_normalize_name` is idempotent on every input string, and rewrites
`"Last, First"` to `"First Last"` with whitespace collapsed — in particular
`"Sanders, Kennedy"` becomes `"Kennedy Sanders"`. -/
theorem c8_normalize_idempotent :
    (∀ s : String, pyNormalizeName (pyNormalizeName s) = pyNormalizeName s)
    ∧ pyNormalizeName ("Sanders, Kennedy") = "Kennedy Sanders"
    ∧ pyNormalizeName ("  Teder ,   Johanna ") = "Johanna Teder" := by
  refine ⟨?_, by decide, by decide⟩
  intro s
  show String.mk (normName (String.mk (normName s.toList)).toList) = _
  rw [show (String.mk (normName s.toList)).toList = normName s.toList from rfl]
  rw [normName_of_normd _ (normd_normName s.toList)]
  rfl

end CUBB
